import Mathlib

/-!
Shallow embedding of the lazy-sequence combinators of `adapters.go`.

A Go `iter.Seq[T]` is `func(yield func(T) bool)`: driving the sequence calls a
caller-supplied consumer once per produced element, and the consumer answers
`true` to continue or `false` to stop.  Sources are modelled as list-backed
sequences (what `slices.Values` yields), and a consumer as a state-threading
step function `σ → T → Bool × σ` (the Go closure state made explicit).

Each combinator below reproduces, by structural recursion over the source
list, the exact control flow of the corresponding Go function when the
sequence it returns is driven with such a consumer.  A drive records the
values passed to `yield` in order (`out`), the number of elements the
underlying source produced, i.e. the number of loop iterations the
range-over-func loop entered (`used`), whether the drive ended because the
consumer answered `false` (`stop`), and the final consumer state (`st`).
-/

namespace adapters

/-- A stateful consumer: Go's `yield func(T) bool` together with the mutable
state its closure captures. -/
def Step (T σ : Type) : Type := σ → T → Bool × σ

/-- The record of one drive of a sequence: the elements passed to the
consumer, the number of elements the underlying source produced, whether the
consumer stopped the drive, and the final consumer state. -/
structure Drive (T σ : Type) where
  out : List T
  used : Nat
  stop : Bool
  st : σ
  deriving Repr, DecidableEq

/-- The consumer that always answers `true` (drive to completion). -/
def contAll {T : Type} : Step T Unit := fun _ _ => (true, ())

/-- Proposition that `l1` is an initial segment of `l2`. -/
def PrefixOf {T : Type} (l1 l2 : List T) : Prop := ∃ u, l1 ++ u = l2

/-- Driving the list-backed sequence `slices.Values s` with a consumer:
each element is offered in order until the list ends or the consumer
answers `false`.  This is the `for v := range s` loop seen from the source
side, and also models the inner loops of `FlatMap`/`Flatten` over their
(list-backed) inner sequences. -/
def listDrive {T σ : Type} (step : Step T σ) : List T → σ → Drive T σ
  | [], st => ⟨[], 0, false, st⟩
  | v :: rest, st =>
    let p := step st v
    if p.1 then
      let d := listDrive step rest p.2
      ⟨v :: d.out, d.used + 1, d.stop, d.st⟩
    else
      ⟨[v], 1, true, p.2⟩

/-- Model of `Filter(s, pred)` driven with a consumer, from `adapters.go`:

    for v := range s {
        if pred(v) {
            if !yield(v) { return }
        }
    }
-/
def Filter {T σ : Type} (pred : T → Bool) (step : Step T σ) :
    List T → σ → Drive T σ
  | [], st => ⟨[], 0, false, st⟩
  | v :: rest, st =>
    if pred v then
      let p := step st v
      if p.1 then
        let d := Filter pred step rest p.2
        ⟨v :: d.out, d.used + 1, d.stop, d.st⟩
      else
        ⟨[v], 1, true, p.2⟩
    else
      let d := Filter pred step rest st
      ⟨d.out, d.used + 1, d.stop, d.st⟩

theorem Filter_contAll {T : Type} (pred : T → Bool) (xs : List T) :
    Filter pred contAll xs () = ⟨xs.filter pred, xs.length, false, ()⟩ := by
  induction xs with
  | nil => rfl
  | cons v rest ih =>
    simp only [Filter, contAll, List.filter, List.length_cons]
    cases h : pred v <;> simp [h, ih]

/-- C3: driving `Filter(s, p)` to completion yields exactly the elements of
`s` satisfying `p`, in original order, while consuming every element of `s`,
and never yields more elements than the source produced. -/
theorem filter_yields_satisfying_subsequence {T : Type} (pred : T → Bool)
    (xs : List T) :
    (Filter pred contAll xs ()).out = xs.filter pred
    ∧ (Filter pred contAll xs ()).used = xs.length
    ∧ (Filter pred contAll xs ()).out.length ≤ (Filter pred contAll xs ()).used := by
  rw [Filter_contAll]
  exact ⟨rfl, rfl, by simpa using xs.length_filter_le pred⟩

/-- Model of `Take(s, n)` driven with a consumer, from `adapters.go` (`n` is a Go
`int`, so it may be negative; `count` starts at `0`):

    count := 0
    for v := range s {
        if count >= n { return }
        if !yield(v) { return }
        count++
    }

Note that the range loop pulls `v` from the source before the
`count >= n` check runs. -/
def Take {T σ : Type} (n : Int) (step : Step T σ) :
    List T → Int → σ → Drive T σ
  | [], _, st => ⟨[], 0, false, st⟩
  | v :: rest, count, st =>
    if count ≥ n then
      ⟨[], 1, false, st⟩
    else
      let p := step st v
      if p.1 then
        let d := Take n step rest (count + 1) p.2
        ⟨v :: d.out, d.used + 1, d.stop, d.st⟩
      else
        ⟨[v], 1, true, p.2⟩

theorem Take_contAll {T : Type} (n : Int) (xs : List T) (count : Int) :
    Take n contAll xs count () =
      ⟨xs.take (n - count).toNat, min xs.length ((n - count).toNat + 1),
        false, ()⟩ := by
  induction xs generalizing count with
  | nil => simp [Take]
  | cons v rest ih =>
    by_cases h : count ≥ n
    · have h0 : (n - count).toNat = 0 := by omega
      simp [Take, h, h0]
    · have h1 : (n - count).toNat = (n - (count + 1)).toNat + 1 := by omega
      simp only [Take, if_neg h, contAll, if_pos, ih (count + 1)]
      rw [Drive.mk.injEq]
      refine ⟨by rw [h1]; rfl, ?_, rfl, rfl⟩
      simp only [List.length_cons]
      omega

/-- C1 counterexample: the claim says driving `Take(s, n)` with an
always-continuing consumer makes the source produce at most `n` elements;
with `s = [1,2,3,4,5]` and `n = 2` the source in fact produces `3`
elements — its third element is pulled (and then discarded). -/
theorem take_pulls_extra_element_cex :
    (adapters.Take 2 adapters.contAll [1, 2, 3, 4, 5] 0 ()).used = 3
    ∧ ¬ (adapters.Take 2 adapters.contAll [1, 2, 3, 4, 5] 0 ()).used ≤ 2 := by
  constructor
  · rfl
  · decide

/-- C1 (amended): driving `Take(s, n)` with an always-continuing consumer
makes the source produce exactly `min(|s|, max(n,0) + 1)` elements: at most
one element beyond the `n`th is pulled (and discarded) before the source is
stopped, and no element past the `(n+1)`th is ever requested. -/
theorem take_source_consumption {T : Type} (n : Int) (xs : List T) :
    (adapters.Take n adapters.contAll xs 0 ()).used
      = min xs.length (n.toNat + 1) := by
  rw [Take_contAll]
  simp

/-- C2: driving `Take(s, n)` to completion yields exactly the first
`min(n, |s|)` elements of `s` in order; `n ≤ 0` yields zero elements and
`n > |s|` yields all `|s|` elements. -/
theorem take_yields_min {T : Type} (n : Int) (xs : List T) :
    (adapters.Take n adapters.contAll xs 0 ()).out = xs.take n.toNat
    ∧ (adapters.Take n adapters.contAll xs 0 ()).out.length
        = min n.toNat xs.length := by
  rw [Take_contAll]
  simp [Nat.min_comm]

/-- Model of `Map(s, transform)` driven with a consumer, from `adapters.go`:

    for v := range s {
        result := transform(v)
        if !yield(result) { return }
    }
-/
def Map {T R σ : Type} (transform : T → R) (step : Step R σ) :
    List T → σ → Drive R σ
  | [], st => ⟨[], 0, false, st⟩
  | v :: rest, st =>
    let result := transform v
    let p := step st result
    if p.1 then
      let d := Map transform step rest p.2
      ⟨result :: d.out, d.used + 1, d.stop, d.st⟩
    else
      ⟨[result], 1, true, p.2⟩

/-- Model of `Reduce(s, initial, reducer)` from `adapters.go`: `s` is driven to
completion with the consumer whose state is the accumulator,

    result := initial
    for v := range s {
        result = reducer(result, v)
    }
    return result
-/
def Reduce {T R : Type} (s : List T) (initial : R) (reducer : R → T → R) : R :=
  (listDrive (fun acc v => (true, reducer acc v)) s initial).st

/-- Model of `Reduce(Map(s, f), initial, g)` composed exactly as in Go: `Reduce`
ranges over the sequence returned by `Map(s, f)`, so that sequence is driven
with `Reduce`'s accumulating loop body as its consumer. -/
def ReduceOfMap {T R A : Type} (s : List T) (f : T → R) (initial : A)
    (g : A → R → A) : A :=
  (Map f (fun acc r => (true, g acc r)) s initial).st

/-- C7: the map/reduce fusion law — `Reduce(Map(s, f), acc, g)` equals
`Reduce(s, acc, fun (a, x) => g(a, f(x)))`. -/
theorem reduce_map_fusion {T R A : Type} (s : List T) (f : T → R)
    (initial : A) (g : A → R → A) :
    adapters.ReduceOfMap s f initial g
      = adapters.Reduce s initial (fun a x => g a (f x)) := by
  induction s generalizing initial with
  | nil => rfl
  | cons v rest ih =>
    simp only [ReduceOfMap, Map, Reduce, listDrive] at *
    exact ih (g initial (f v))

/-- Result of one drive of the keyed sequence `Zip(s1, s2)`: the pairs
passed to the consumer, how many elements each source produced (successful
`next1()` / `next2()` calls), whether the consumer stopped the drive, and
the final consumer state. -/
structure ZipDrive (T U σ : Type) where
  out : List (T × U)
  usedA : Nat
  usedB : Nat
  stop : Bool
  st : σ
  deriving Repr, DecidableEq

/-- Model of `Zip(s1, s2)` driven with a consumer, from `adapters.go`.  The two
sources are converted to pull handles (`iter.Pull`); each loop turn pulls
from `s1` first, then from `s2`:

    for {
        v1, ok1 := next1()
        if !ok1 { return }
        v2, ok2 := next2()
        if !ok2 { return }
        if !yield(v1, v2) { return }
    }

For list-backed sources a pull handle simply hands out the remaining list
elements in order, reporting `ok = false` once the list is exhausted. -/
def Zip {T U σ : Type} (step : Step (T × U) σ) :
    List T → List U → σ → ZipDrive T U σ
  | [], _, st => ⟨[], 0, 0, false, st⟩
  | _ :: _, [], st => ⟨[], 1, 0, false, st⟩
  | a :: as, b :: bs, st =>
    let p := step st (a, b)
    if p.1 then
      let d := Zip step as bs p.2
      ⟨(a, b) :: d.out, d.usedA + 1, d.usedB + 1, d.stop, d.st⟩
    else
      ⟨[(a, b)], 1, 1, true, p.2⟩

theorem Zip_contAll {T U : Type} (A : List T) (B : List U) :
    Zip contAll A B () =
      ⟨A.zip B, min A.length (B.length + 1), min A.length B.length,
        false, ()⟩ := by
  induction A generalizing B with
  | nil => simp [Zip]
  | cons a as ih =>
    cases B with
    | nil => simp [Zip]
    | cons b bs =>
      simp only [Zip, contAll, if_pos, ih bs, List.zip_cons_cons]
      rw [ZipDrive.mk.injEq]
      refine ⟨rfl, ?_, ?_, rfl, rfl⟩ <;> simp <;> omega

/-- C4: driving `Zip(A, B)` to completion yields exactly
`min(|A|, |B|)` pairs, the `i`-th pair being the `i`-th elements of the two
sources; zipping `[1,2,3,4,5]` with `["a","b","c"]` yields exactly the three
pairs `(1,"a"), (2,"b"), (3,"c")`. -/
theorem zip_yields_min_pairs {T U : Type} (A : List T) (B : List U) :
    (adapters.Zip adapters.contAll A B ()).out = A.zip B
    ∧ (adapters.Zip adapters.contAll A B ()).out.length
        = min A.length B.length
    ∧ (adapters.Zip adapters.contAll [1, 2, 3, 4, 5]
        (["a", "b", "c"] : List String) ()).out
        = [(1, "a"), (2, "b"), (3, "c")] := by
  rw [Zip_contAll]
  exact ⟨rfl, by simp, rfl⟩

/-- C5: whenever the consumer of `Zip(A, B)` stops the drive, each source
has produced exactly as many elements as there were pairs delivered to the
consumer; in particular a consumer that stops after the `k`-th pair leaves
both sources advanced exactly `k` elements. -/
theorem zip_early_stop_consumption {T U σ : Type} (step : Step (T × U) σ)
    (A : List T) (B : List U) (st : σ) (k : Nat)
    (hstop : (adapters.Zip step A B st).stop = true)
    (hk : (adapters.Zip step A B st).out.length = k) :
    (adapters.Zip step A B st).usedA = k
    ∧ (adapters.Zip step A B st).usedB = k := by
  subst hk
  induction A generalizing B st with
  | nil => simp [Zip] at hstop
  | cons a as ih =>
    cases B with
    | nil => simp [Zip] at hstop
    | cons b bs =>
      simp only [Zip] at hstop ⊢
      by_cases h : (step st (a, b)).1
      · simp only [if_pos h] at hstop ⊢
        have := ih bs (step st (a, b)).2 hstop
        simp only [List.length_cons]
        omega
      · simp [if_neg h]

/-- The consumer (with the count of pairs received so far as its state)
that continues until it has received `k` elements and then stops. -/
def stopAfter {T : Type} (k : Nat) : Step T Nat :=
  fun received _ => (decide (received + 1 < k), received + 1)

/-- C5 witness: stopping the consumer after the 2nd pair of
`Zip([1,2,3], [4,5,6])` leaves both sources advanced exactly 2 elements. -/
theorem zip_early_stop_consumption_witness :
    (adapters.Zip (adapters.stopAfter 2) [1, 2, 3] [4, 5, 6] 0).usedA = 2
    ∧ (adapters.Zip (adapters.stopAfter 2) [1, 2, 3] [4, 5, 6] 0).usedB = 2 :=
  adapters.zip_early_stop_consumption (adapters.stopAfter 2) [1, 2, 3]
    [4, 5, 6] 0 2 (by decide) (by decide)

/-- C10: `Zip`'s consumption on exhaustion is asymmetric.  Driving
`Zip(A, B)` to its natural end with an always-continuing consumer: if `B`
exhausts first (`|B| < |A|`) then `A` produces `|B| + 1` elements — one
element beyond the last pair is pulled from `A` and discarded, because `A`
is pulled before `B` on every turn — while `B` produces `|B|`; if `A`
exhausts first (`|A| ≤ |B|`) then both sources produce exactly `|A|`
elements. -/
theorem zip_asymmetric_consumption {T U : Type} (A : List T) (B : List U) :
    (B.length < A.length →
      (adapters.Zip adapters.contAll A B ()).usedA = B.length + 1
      ∧ (adapters.Zip adapters.contAll A B ()).usedB = B.length)
    ∧ (A.length ≤ B.length →
      (adapters.Zip adapters.contAll A B ()).usedA = A.length
      ∧ (adapters.Zip adapters.contAll A B ()).usedB = A.length) := by
  rw [Zip_contAll]
  constructor <;> intro h <;> constructor <;> simp <;> omega

/-- C10 witness: zipping `[1,2,3]` against the shorter `[10]` pulls two
elements of the first source (one discarded) and one of the second. -/
theorem zip_asymmetric_consumption_witness :
    (adapters.Zip adapters.contAll [1, 2, 3] [10] ()).usedA = 2
    ∧ (adapters.Zip adapters.contAll [1, 2, 3] [10] ()).usedB = 1 :=
  (adapters.zip_asymmetric_consumption [1, 2, 3] [10]).1 (by decide)

theorem PrefixOf_append_left {T : Type} (l : List T) {x y : List T}
    (h : PrefixOf x y) : PrefixOf (l ++ x) (l ++ y) := by
  obtain ⟨u, hu⟩ := h
  exact ⟨u, by rw [List.append_assoc, hu]⟩

theorem PrefixOf_nil {T : Type} (l : List T) : PrefixOf [] l := ⟨l, rfl⟩

theorem listDrive_append {T σ : Type} (step : Step T σ) (l1 l2 : List T)
    (st : σ) :
    listDrive step (l1 ++ l2) st =
      if (listDrive step l1 st).stop then
        ⟨(listDrive step l1 st).out, (listDrive step l1 st).used, true,
          (listDrive step l1 st).st⟩
      else
        ⟨(listDrive step l1 st).out
            ++ (listDrive step l2 (listDrive step l1 st).st).out,
          (listDrive step l1 st).used
            + (listDrive step l2 (listDrive step l1 st).st).used,
          (listDrive step l2 (listDrive step l1 st).st).stop,
          (listDrive step l2 (listDrive step l1 st).st).st⟩ := by
  induction l1 generalizing st with
  | nil => simp [listDrive]
  | cons v l1 ih =>
    by_cases hp : (step st v).1 = true
    · simp only [List.cons_append, listDrive, hp, if_true, List.append_eq]
      rw [ih (step st v).2]
      by_cases hs : (listDrive step l1 (step st v).2).stop = true
      · simp [listDrive, hp, hs]
      · simp only [listDrive, hp, if_true, hs, Bool.false_eq_true, if_false]
        rw [Drive.mk.injEq]
        exact ⟨rfl, by omega, rfl, rfl⟩
    · simp [listDrive, hp]

theorem listDrive_out_of_not_stop {T σ : Type} (step : Step T σ)
    (l : List T) (st : σ) (h : (listDrive step l st).stop = false) :
    (listDrive step l st).out = l := by
  induction l generalizing st with
  | nil => rfl
  | cons v rest ih =>
    by_cases hp : (step st v).1 = true
    · simp only [listDrive, hp, if_true] at h ⊢
      rw [ih (step st v).2 h]
    · simp [listDrive, hp] at h

theorem listDrive_out_prefixOf {T σ : Type} (step : Step T σ) (l : List T)
    (st : σ) : PrefixOf (listDrive step l st).out l := by
  induction l generalizing st with
  | nil => exact ⟨[], rfl⟩
  | cons v rest ih =>
    by_cases hp : (step st v).1 = true
    · simp only [listDrive, hp, if_true]
      obtain ⟨u, hu⟩ := ih (step st v).2
      exact ⟨u, by rw [List.cons_append, hu]⟩
    · simp only [listDrive, hp, if_false, Bool.false_eq_true]
      exact ⟨rest, rfl⟩

/-- Model of `FlatMap(s, transform)` driven with a consumer, from `adapters.go`
(inner sequences are list-backed; `used` counts the outer elements
visited):

    for v := range s {
        innerSeq := transform(v)
        for innerV := range innerSeq {
            if !yield(innerV) { return }
        }
    }

A `return` inside the inner loop makes the inner consumer answer `false`
and then makes the outer loop body return, so the outer source is stopped
as well. -/
def FlatMap {T R σ : Type} (transform : T → List R) (step : Step R σ) :
    List T → σ → Drive R σ
  | [], st => ⟨[], 0, false, st⟩
  | v :: rest, st =>
    let inner := listDrive step (transform v) st
    if inner.stop then
      ⟨inner.out, 1, true, inner.st⟩
    else
      let d := FlatMap transform step rest inner.st
      ⟨inner.out ++ d.out, d.used + 1, d.stop, d.st⟩

theorem FlatMap_eq_join_drive {T R σ : Type} (transform : T → List R)
    (step : Step R σ) (xs : List T) (st : σ) :
    (FlatMap transform step xs st).out
        = (listDrive step ((xs.map transform).flatten) st).out
    ∧ (FlatMap transform step xs st).stop
        = (listDrive step ((xs.map transform).flatten) st).stop
    ∧ (FlatMap transform step xs st).st
        = (listDrive step ((xs.map transform).flatten) st).st := by
  induction xs generalizing st with
  | nil => exact ⟨rfl, rfl, rfl⟩
  | cons v rest ih =>
    simp only [List.map_cons, List.flatten_cons,
      listDrive_append step (transform v) ((rest.map transform).flatten) st]
    by_cases hs : (listDrive step (transform v) st).stop = true
    · simp [FlatMap, hs]
    · obtain ⟨h1, h2, h3⟩ := ih (listDrive step (transform v) st).st
      simp [FlatMap, hs, h1, h2, h3]

theorem FlatMap_used_of_not_stop {T R σ : Type} (transform : T → List R)
    (step : Step R σ) (xs : List T) (st : σ)
    (h : (FlatMap transform step xs st).stop = false) :
    (FlatMap transform step xs st).used = xs.length := by
  induction xs generalizing st with
  | nil => rfl
  | cons v rest ih =>
    by_cases hs : (listDrive step (transform v) st).stop = true
    · simp [FlatMap, hs] at h
    · simp only [FlatMap, hs, if_neg, Bool.false_eq_true, if_false,
        List.length_cons] at h ⊢
      rw [ih (listDrive step (transform v) st).st h]

theorem FlatMap_visited_join_prefixOf {T R σ : Type}
    (transform : T → List R) (step : Step R σ) (xs : List T) (st : σ) :
    PrefixOf
      (((xs.take ((FlatMap transform step xs st).used - 1)).map
          transform).flatten)
      (FlatMap transform step xs st).out := by
  induction xs generalizing st with
  | nil => exact PrefixOf_nil _
  | cons v rest ih =>
    by_cases hs : (listDrive step (transform v) st).stop = true
    · simp only [FlatMap, hs, if_true]
      simpa using PrefixOf_nil (listDrive step (transform v) st).out
    · have hout := listDrive_out_of_not_stop step (transform v) st
        (by simpa using hs)
      have hIH := ih (listDrive step (transform v) st).st
      simp only [FlatMap, hs, Bool.false_eq_true, if_false,
        Nat.add_sub_cancel]
      rcases hu : (FlatMap transform step rest
          (listDrive step (transform v) st).st).used with _ | m
      · simpa using PrefixOf_nil _
      · rw [hu] at hIH
        simp only [Nat.succ_sub_one] at hIH
        simp only [List.take_succ_cons, List.map_cons, List.flatten_cons,
          hout]
        exact PrefixOf_append_left _ hIH

theorem FlatMap_out_prefixOf_visited_join {T R σ : Type}
    (transform : T → List R) (step : Step R σ) (xs : List T) (st : σ) :
    PrefixOf (FlatMap transform step xs st).out
      (((xs.take ((FlatMap transform step xs st).used)).map
          transform).flatten) := by
  induction xs generalizing st with
  | nil => exact PrefixOf_nil _
  | cons v rest ih =>
    by_cases hs : (listDrive step (transform v) st).stop = true
    · have h1 : List.take 1 (v :: rest) = [v] := rfl
      simp only [FlatMap, hs, if_true, h1, List.map_cons, List.map_nil,
        List.flatten_cons, List.flatten_nil, List.append_nil]
      exact listDrive_out_prefixOf step (transform v) st
    · have hout := listDrive_out_of_not_stop step (transform v) st
        (by simpa using hs)
      simp only [FlatMap, hs, Bool.false_eq_true, if_false,
        List.take_succ_cons, List.map_cons, List.flatten_cons, hout]
      exact PrefixOf_append_left _ (ih (listDrive step (transform v) st).st)

/-- C6: driving `FlatMap(s, transform)` with any consumer behaves exactly
like driving the depth-first concatenation of the inner sequences
`transform(x)` in outer-element order (same yields, same stop behaviour,
same final consumer state); the output always covers every fully-visited
outer element's inner sequence and never reaches beyond the inner sequences
of the `used` visited outer elements, and when the consumer never stops,
every outer element is visited. -/
theorem flatMap_concat_semantics {T R σ : Type} (transform : T → List R)
    (step : Step R σ) (xs : List T) (st : σ) :
    (adapters.FlatMap transform step xs st).out
        = (adapters.listDrive step ((xs.map transform).flatten) st).out
    ∧ (adapters.FlatMap transform step xs st).stop
        = (adapters.listDrive step ((xs.map transform).flatten) st).stop
    ∧ (adapters.FlatMap transform step xs st).st
        = (adapters.listDrive step ((xs.map transform).flatten) st).st
    ∧ adapters.PrefixOf
        (((xs.take ((adapters.FlatMap transform step xs st).used - 1)).map
            transform).flatten)
        (adapters.FlatMap transform step xs st).out
    ∧ adapters.PrefixOf (adapters.FlatMap transform step xs st).out
        (((xs.take ((adapters.FlatMap transform step xs st).used)).map
            transform).flatten)
    ∧ ((adapters.FlatMap transform step xs st).stop = false →
        (adapters.FlatMap transform step xs st).used = xs.length) :=
  ⟨(FlatMap_eq_join_drive transform step xs st).1,
    (FlatMap_eq_join_drive transform step xs st).2.1,
    (FlatMap_eq_join_drive transform step xs st).2.2,
    FlatMap_visited_join_prefixOf transform step xs st,
    FlatMap_out_prefixOf_visited_join transform step xs st,
    FlatMap_used_of_not_stop transform step xs st⟩

/-- C6 witness: `FlatMap` over `[[1,2],[3,4],[5,6]]` with the
identity-sequence transform, driven with a consumer that stops after three
elements, yields the same elements as driving the concatenation
`[1,2,3,4,5,6]` with that consumer. -/
theorem flatMap_concat_semantics_witness :
    (adapters.FlatMap (fun l => l) (adapters.stopAfter 3)
        [[1, 2], [3, 4], [5, 6]] 0).out
      = (adapters.listDrive (adapters.stopAfter 3)
          (([[1, 2], [3, 4], [5, 6]].map (fun l => l)).flatten) 0).out :=
  (adapters.flatMap_concat_semantics (fun l => l) (adapters.stopAfter 3)
    [[1, 2], [3, 4], [5, 6]] 0).1

theorem listDrive_contAll {T : Type} (l : List T) :
    listDrive contAll l () = ⟨l, l.length, false, ()⟩ := by
  induction l with
  | nil => rfl
  | cons v rest ih => simp [listDrive, contAll, ih]

/-- The runtime shapes distinguished by `Flatten`'s type switch, as the
closed variant type the design prescribes: a nested sequence
(`iter.Seq[T]`, list-backed), an optional reference to one (`*iter.Seq[T]`,
`none` for `nil`), a bounded list (`[]T`), an optional reference to one
(`*[]T`, `none` for `nil`), a bare scalar (`T`), and everything the switch
does not recognize. -/
inductive FlattenItem (T : Type) where
  | seqCase : List T → FlattenItem T
  | seqPtrCase : Option (List T) → FlattenItem T
  | sliceCase : List T → FlattenItem T
  | slicePtrCase : Option (List T) → FlattenItem T
  | scalarCase : T → FlattenItem T
  | unrecognized : FlattenItem T
  deriving Repr, DecidableEq

/-- Elements an item contributes: the item's own elements for the five
recognized shapes (none for an absent reference) and nothing for an
unrecognized item. -/
def itemElems {T : Type} : FlattenItem T → List T
  | .seqCase l => l
  | .seqPtrCase none => []
  | .seqPtrCase (some l) => l
  | .sliceCase l => l
  | .slicePtrCase none => []
  | .slicePtrCase (some l) => l
  | .scalarCase v => [v]
  | .unrecognized => []

/-- Model of `Flatten(s)` driven with a consumer, from `adapters.go`:

    for item := range s {
        switch v := item.(type) {
        case iter.Seq[T]:  for innerV := range v { if !yield(innerV) { return } }
        case *iter.Seq[T]: if v != nil { for innerV := range *v { ... } }
        case []T:          for _, innerV := range v { ... }
        case *[]T:         if v != nil { for _, innerV := range *v { ... } }
        case T:            if !yield(v) { return }
        }
    }

Each inner loop stops the outer drive when the consumer answers `false`;
a `nil` reference and an unrecognized item are passed over.  `used` counts
the outer items visited. -/
def Flatten {T σ : Type} (step : Step T σ) :
    List (FlattenItem T) → σ → Drive T σ
  | [], st => ⟨[], 0, false, st⟩
  | item :: rest, st =>
    match item with
    | .seqCase l =>
      let inner := listDrive step l st
      if inner.stop then
        ⟨inner.out, 1, true, inner.st⟩
      else
        let d := Flatten step rest inner.st
        ⟨inner.out ++ d.out, d.used + 1, d.stop, d.st⟩
    | .seqPtrCase none =>
      let d := Flatten step rest st
      ⟨d.out, d.used + 1, d.stop, d.st⟩
    | .seqPtrCase (some l) =>
      let inner := listDrive step l st
      if inner.stop then
        ⟨inner.out, 1, true, inner.st⟩
      else
        let d := Flatten step rest inner.st
        ⟨inner.out ++ d.out, d.used + 1, d.stop, d.st⟩
    | .sliceCase l =>
      let inner := listDrive step l st
      if inner.stop then
        ⟨inner.out, 1, true, inner.st⟩
      else
        let d := Flatten step rest inner.st
        ⟨inner.out ++ d.out, d.used + 1, d.stop, d.st⟩
    | .slicePtrCase none =>
      let d := Flatten step rest st
      ⟨d.out, d.used + 1, d.stop, d.st⟩
    | .slicePtrCase (some l) =>
      let inner := listDrive step l st
      if inner.stop then
        ⟨inner.out, 1, true, inner.st⟩
      else
        let d := Flatten step rest inner.st
        ⟨inner.out ++ d.out, d.used + 1, d.stop, d.st⟩
    | .scalarCase v =>
      let p := step st v
      if p.1 then
        let d := Flatten step rest p.2
        ⟨v :: d.out, d.used + 1, d.stop, d.st⟩
      else
        ⟨[v], 1, true, p.2⟩
    | .unrecognized =>
      let d := Flatten step rest st
      ⟨d.out, d.used + 1, d.stop, d.st⟩

theorem Flatten_contAll {T : Type} (items : List (FlattenItem T)) :
    Flatten contAll items () =
      ⟨(items.map itemElems).flatten, items.length, false, ()⟩ := by
  induction items with
  | nil => rfl
  | cons item rest ih =>
    cases item with
    | seqCase l => simp [Flatten, itemElems, listDrive_contAll, ih]
    | seqPtrCase o =>
      cases o <;> simp [Flatten, itemElems, listDrive_contAll, ih]
    | sliceCase l => simp [Flatten, itemElems, listDrive_contAll, ih]
    | slicePtrCase o =>
      cases o <;> simp [Flatten, itemElems, listDrive_contAll, ih]
    | scalarCase v => simp [Flatten, itemElems, contAll, ih]
    | unrecognized => simp [Flatten, itemElems, ih]

/-- C9: driving `Flatten` to completion yields, in place and in original
order, the elements of every recognized item (a nested sequence, an
optional reference to one — empty when absent —, a bounded list, an
optional reference to one, or a bare scalar), and silently skips an
unrecognized item while continuing with the rest; over
`[[1,2,3], seq(4,5), 6, ref([7,8]), [9,10]]` it yields `1,…,10`. -/
theorem flatten_classifies_and_skips {T : Type}
    (items : List (FlattenItem T)) :
    (adapters.Flatten adapters.contAll items ()).out
        = (items.map adapters.itemElems).flatten
    ∧ (adapters.Flatten adapters.contAll
        [FlattenItem.sliceCase [1, 2, 3], FlattenItem.seqCase [4, 5],
          FlattenItem.scalarCase 6, FlattenItem.slicePtrCase (some [7, 8]),
          FlattenItem.sliceCase [9, 10]] ()).out
        = [1, 2, 3, 4, 5, 6, 7, 8, 9, 10]
    ∧ (adapters.Flatten adapters.contAll
        [FlattenItem.sliceCase [1, 2], FlattenItem.unrecognized,
          FlattenItem.seqPtrCase none, FlattenItem.scalarCase 3] ()).out
        = [1, 2, 3] := by
  refine ⟨?_, rfl, rfl⟩
  rw [Flatten_contAll]

/-- Model of `FilterMap(s, transform)` driven with a consumer, from
`adapters.go`; the Go transform returns `(R, error)` and the result is
yielded exactly when the error is `nil`, modelled as `Except E R`:

    for v := range s {
        if result, err := transform(v); err == nil {
            if !yield(result) { return }
        }
    }
-/
def FilterMap {T R E σ : Type} (transform : T → Except E R)
    (step : Step R σ) : List T → σ → Drive R σ
  | [], st => ⟨[], 0, false, st⟩
  | v :: rest, st =>
    match transform v with
    | .ok result =>
      let p := step st result
      if p.1 then
        let d := FilterMap transform step rest p.2
        ⟨result :: d.out, d.used + 1, d.stop, d.st⟩
      else
        ⟨[result], 1, true, p.2⟩
    | .error _ =>
      let d := FilterMap transform step rest st
      ⟨d.out, d.used + 1, d.stop, d.st⟩

theorem FilterMap_contAll {T R E : Type} (transform : T → Except E R)
    (xs : List T) :
    FilterMap transform contAll xs () =
      ⟨xs.filterMap (fun v => (transform v).toOption), xs.length,
        false, ()⟩ := by
  induction xs with
  | nil => rfl
  | cons v rest ih =>
    cases h : transform v <;>
      simp [FilterMap, contAll, h, ih, List.filterMap_cons, Except.toOption]

/-- C8: `FilterMap` yields the transform's result for an element exactly
when the transform succeeds on it, and yields nothing at all for an element
on which it fails; over `[1,2,3,4,5]` with a transform failing exactly on
`3` and squaring otherwise, the output is exactly `1,4,16,25`. -/
theorem filterMap_success_only {T R E : Type} (transform : T → Except E R)
    (xs : List T) :
    (adapters.FilterMap transform adapters.contAll xs ()).out
        = xs.filterMap (fun v => (transform v).toOption)
    ∧ (adapters.FilterMap
        (fun n : Nat =>
          if n = 3 then Except.error 0 else Except.ok (n * n))
        adapters.contAll [1, 2, 3, 4, 5] ()).out = [1, 4, 16, 25] := by
  rw [FilterMap_contAll]
  exact ⟨rfl, rfl⟩

end adapters
